import Mathlib

/-!
Verification of the path-inference engine of the `gidopen` Sublime Text
plugin (`gidopen.py`), shallowly embedded in Lean 4.

Modelling conventions:
* The POSIX configuration of the module is embedded (the `else` branch of
  the `platform.system() == 'Windows'` test at the top of `gidopen.py`,
  where `os.sep == '/'` and `os.path.normcase` is the identity).
* Python strings are `List Char`; buffer positions are `Int` (Sublime
  points), with `view.substr(point)` returning the NUL character for an
  out-of-range point and `view.substr(Region(a, b))` clamping to the
  buffer, as the Sublime API does.
* The filesystem (`os.path.isfile` / `os.path.isdir` / `os.listdir` /
  `is_readable`) and the process environment (`os.path.expandvars`, the
  tilde-resolving part of `os.path.expanduser`) are injected capabilities,
  modelled as record fields, since the engine only observes them through
  these calls.
* Python generators are embedded as the list of values they yield, in
  yield order; a generator whose `return` value is consumed by
  `yield from` is embedded as a pair of the yielded list and the returned
  value.
* `os.walk` traversals recurse through the abstract filesystem, so they
  take an explicit fuel argument standing for the finiteness of the real
  directory tree; the theorems below hold for every fuel.
-/

namespace Gidopen

/-- Null character returned by `view.substr` for out-of-range points. -/
def nullChar : Char := Char.ofNat 0

/-- Sublime text buffer: the character at point `p`, NUL when out of range
(`view.substr(point)`). -/
def substrP (view : List Char) (p : Int) : Char :=
  if 0 ≤ p ∧ p < (view.length : Int) then view.getD p.toNat nullChar else nullChar

/-- Sublime text buffer: the text of the span from `a` to `b`, clamped to
the buffer (`view.substr(sublime.Region(a, b))` for `a ≤ b`). -/
def substrR (view : List Char) (a b : Int) : List Char :=
  let lo := (max a 0).toNat
  let hi := (min b (view.length : Int)).toNat
  (view.drop lo).take (hi - lo)

/-- Sublime region: a pair of points (`sublime.Region`). -/
structure Region where
  a : Int
  b : Int
deriving DecidableEq, Repr

/-- Lower bound of a region (`Region.begin()`). -/
def Region.start (r : Region) : Int := min r.a r.b

/-- Upper bound of a region (`Region.end()`). -/
def Region.stop (r : Region) : Int := max r.a r.b

/-- Number of characters spanned by a region (`Region.size()`). -/
def Region.size (r : Region) : Nat := (r.b - r.a).natAbs

/-- The five `Candidate` subclasses of `gidopen.py`. -/
inductive CandidateKind where
  | fileFound
  | folderFound
  | fileNotFound
  | folderNotFound
  | textFound
deriving DecidableEq, Repr

/-- A `Candidate`: a buffer region and a path string, tagged with one of the
five subclasses. -/
structure Candidate where
  kind : CandidateKind
  region : Region
  path : List Char
deriving DecidableEq, Repr

/-- Injected filesystem capability: the calls `gidopen.py` makes through
`os.path` / `os` / `is_readable`. -/
structure FS where
  isFile : List Char → Bool
  isDir : List Char → Bool
  readable : List Char → Bool
  listdir : List Char → List (List Char)

/-- Injected environment capability: `os.path.expandvars`, and the
behaviour of `os.path.expanduser` on strings that start with a tilde. -/
structure Env where
  expandvars : List Char → List Char
  expandtilde : List Char → List Char

/-- POSIX `expanduser` from `gidopen.py` (delegates to
`os.path.expanduser`, which returns any string not starting with a tilde
unchanged). -/
def expanduser (env : Env) (p : List Char) : List Char :=
  if p.head? = some '~' then env.expandtilde p else p

/-- POSIX `is_path_root`: the path is exactly the single separator. -/
def is_path_root (s : List Char) : Bool := s = ['/']

/-- POSIX `is_path_sep`: the character is the separator. -/
def is_path_sep (c : Char) : Bool := c = '/'

/-- POSIX `os.path.isabs`: the path starts with the separator. -/
def isabs (p : List Char) : Bool := p.head? = some '/'

/-- The exclusion set of `is_likely_path_char`, in source order: the
Python string literal spelling less-than, greater-than, ampersand, pipe,
single quote, double quote, comma, semicolon, colon, square brackets,
parentheses, star, question mark, backquote, equals, hash, bang. -/
def likelyPathExclusions : List Char :=
  ['<', '>', '&', '|', Char.ofNat 39, '"', ',', ';', ':', '[', ']',
   '(', ')', '*', '?', Char.ofNat 96, '=', '#', '!']

/-- `is_likely_path_char` from `gidopen.py`. -/
def is_likely_path_char (c : Char) : Bool :=
  if c.toNat ≤ 32 then false
  else if c ∈ likelyPathExclusions then false
  else true

/-- `find_all(pat, s)`: the start offsets of every (possibly overlapping)
occurrence of `pat` in `s`, in increasing order — the list of indices `i`
with `0 ≤ i ≤ s.length` at which `pat` occurs, which is exactly what the
`str.find` loop of the source yields. -/
def find_all (pat s : List Char) : List Nat :=
  (List.range (s.length + 1)).filter (fun i => pat.isPrefixOf (s.drop i))

/-- Python `str.split('/')`. -/
def splitSlash : List Char → List (List Char)
  | [] => [[]]
  | c :: cs =>
    match splitSlash cs with
    | [] => [[]]
    | w :: ws => if c = '/' then [] :: w :: ws else (c :: w) :: ws

/-- Component loop of `posixpath.normpath`: drops empty and dot
components, and resolves a dot-dot component against the accumulated
components exactly as CPython does. -/
def normpathComps (noInitialSlashes : Bool) :
    List (List Char) → List (List Char) → List (List Char)
  | acc, [] => acc
  | acc, comp :: rest =>
    if comp = [] ∨ comp = ['.'] then normpathComps noInitialSlashes acc rest
    else if comp ≠ ['.', '.'] ∨ (noInitialSlashes ∧ acc = [])
        ∨ (acc ≠ [] ∧ acc.getLast? = some ['.', '.']) then
      normpathComps noInitialSlashes (acc ++ [comp]) rest
    else if acc ≠ [] then normpathComps noInitialSlashes acc.dropLast rest
    else normpathComps noInitialSlashes acc rest

/-- POSIX `os.path.normpath`, as in CPython's `posixpath.normpath`. -/
def normpath (p : List Char) : List Char :=
  if p = [] then ['.']
  else
    let initialSlashes : Nat :=
      if p.take 2 = ['/', '/'] ∧ p.take 3 ≠ ['/', '/', '/'] then 2
      else if p.head? = some '/' then 1
      else 0
    let comps := normpathComps (initialSlashes = 0) [] (splitSlash p)
    let joined := List.replicate initialSlashes '/' ++ List.intercalate ['/'] comps
    if joined = [] then ['.'] else joined

/-- POSIX `os.path.split`: split after the last separator, stripping
trailing separators from the head unless the head is all separators. -/
def posixSplit (p : List Char) : List Char × List Char :=
  let i := p.length - (p.reverse.takeWhile (fun c => c ≠ '/')).length
  let head := p.take i
  let tail := p.drop i
  let head :=
    if head ≠ [] ∧ head.any (fun c => c ≠ '/') then
      (head.reverse.dropWhile (fun c => c = '/')).reverse
    else head
  (head, tail)

/-- POSIX `os.path.dirname`. -/
def posixDirname (p : List Char) : List Char := (posixSplit p).1

/-- POSIX `os.path.basename`. -/
def posixBasename (p : List Char) : List Char := (posixSplit p).2

/-- POSIX `os.path.join` for two arguments. -/
def pathjoin (a b : List Char) : List Char :=
  if b.head? = some '/' then b
  else if a = [] ∨ a.getLast? = some '/' then a ++ b
  else a ++ '/' :: b

/-- Python `str.rstrip(chars)`: drop trailing characters belonging to the
given set. -/
def rstrip (s : List Char) (chars : List Char) : List Char :=
  (s.reverse.dropWhile (fun c => c ∈ chars)).reverse

/-- Canonical form of a `PartialPath`: `normcase(normpath(path))` for a
non-empty path and the empty string otherwise; on POSIX `normcase` is the
identity, so this is `PartialPath.canonical` for the embedded platform. -/
def ppCanonical (p : List Char) : List Char :=
  if p = [] then [] else normpath p

/-- An `AbsolutePath` after construction: on POSIX the `norm` and
`canonical` fields coincide, so the object is represented by that one
string (the constructor's normalization is applied at the call sites that
build one from a raw string). -/
structure AbsolutePath where
  canonical : List Char
deriving DecidableEq, Repr

/-- `AbsolutePath.__lt__`: `self` is a strict ancestor of `other` when
`other`'s canonical form starts with `self`'s canonical form followed by
`os.sep`. -/
def AbsolutePath.lt (a b : AbsolutePath) : Bool :=
  (a.canonical ++ ['/']).isPrefixOf b.canonical

/-- `AbsolutePath.__le__`: equality or strict ancestry. -/
def AbsolutePath.le (a b : AbsolutePath) : Bool :=
  a = b ∨ AbsolutePath.lt a b

/-- Python's reflected comparison: `x >= y` with no `__ge__` defined on
`AbsolutePath` resolves to `y.__le__(x)`. -/
def AbsolutePath.ge (a b : AbsolutePath) : Bool := AbsolutePath.le b a

/-- Python's reflected comparison: `x > y` with no `__gt__` defined on
`AbsolutePath` resolves to `y.__lt__(x)`. -/
def AbsolutePath.gt (a b : AbsolutePath) : Bool := AbsolutePath.lt b a

/-- `AbsolutePath` constructed from a string: `normpath` then
`expanduser`, matching `AbsolutePath.normalize` (with `canonical` equal to
the normalized form on POSIX). -/
def AbsolutePath.ofString (env : Env) (p : List Char) : AbsolutePath :=
  ⟨expanduser env (if p = [] then p else normpath p)⟩

/-- `AbsolutePath.canonical_base`: basename of the canonical form. -/
def AbsolutePath.canonical_base (a : AbsolutePath) : List Char :=
  posixBasename a.canonical

/-- `AbsolutePath.basepath`: basename of the `norm` field, which on POSIX
equals the canonical form. -/
def AbsolutePath.basepath (a : AbsolutePath) : List Char :=
  posixBasename a.canonical

/-- `select_longest_path`: keeps the first candidate whose path length
strictly exceeds every earlier one (the running maximum starts at -1). -/
def select_longest_path (candidates : List Candidate) : Option Candidate :=
  (candidates.foldl
    (fun acc candidate =>
      let length := candidate.path.length
      if (length : Int) > acc.2 then (some candidate, (length : Int)) else acc)
    ((none : Option Candidate), (-1 : Int))).1

/-- `select_longest_region`: keeps the first candidate whose region size
strictly exceeds every earlier one (the running maximum starts at -1). -/
def select_longest_region (candidates : List Candidate) : Option Candidate :=
  (candidates.foldl
    (fun acc candidate =>
      let length := candidate.region.size
      if (length : Int) > acc.2 then (some candidate, (length : Int)) else acc)
    ((none : Option Candidate), (-1 : Int))).1

/-- Step function shared by the two selection folds, abstracted over the
measured quantity. -/
def selStep (f : Candidate → Nat) (acc : Option Candidate × Int) (c : Candidate) :
    Option Candidate × Int :=
  if ((f c : Int) > acc.2) then (some c, (f c : Int)) else acc

/-- Sublime text buffer with natural-number positions, as used by the
line/column parser (whose scan position only moves right from a region
end): character at a position, NUL at or beyond the end. -/
def substrN (view : List Char) (pos : Nat) : Char :=
  view.getD pos nullChar

/-- Sublime text buffer with natural-number positions: text of the span
from `a` to `b`, clamped to the buffer. -/
def substrRN (view : List Char) (a b : Nat) : List Char :=
  (view.drop a).take (b - a)

theorem substrN_eq_null_of_le {view : List Char} {pos : Nat}
    (h : view.length ≤ pos) : substrN view pos = nullChar :=
  List.getD_eq_default view nullChar h

theorem lt_length_of_isDigit_substrN {view : List Char} {pos : Nat}
    (h : (substrN view pos).isDigit = true) : pos < view.length := by
  by_contra hc
  rw [substrN_eq_null_of_le (Nat.le_of_not_lt hc)] at h
  exact absurd h (by decide)

/-- The digit-scanning loops of `get_line_col` (`while ch in '0123456789'`):
the maximal run of digit characters starting at `pos`, together with the
position of the first non-digit character after the run. -/
def readDigits (view : List Char) (pos : Nat) : List Char × Nat :=
  if h : (substrN view pos).isDigit then
    let rec' := readDigits view (pos + 1)
    (substrN view pos :: rec'.1, rec'.2)
  else ([], pos)
termination_by view.length - pos
decreasing_by
  have := lt_length_of_isDigit_substrN h
  omega

/-- `get_line_col` from `gidopen.py`: parses the characters following a
matched filename against the line/column patterns. The source threads one
mutable `pos` through the scan; here each read is written with its
explicit offset from the entry position. Python's mixed return values are
rendered uniformly as digit strings: the literal integer 0 of
`return (line, 0)` becomes the one-character string `0`. -/
def get_line_col (view : List Char) (pos : Nat) : Option (List Char × List Char) :=
  if substrN view pos = ':' then
    if substrN view (pos + 1) = ' ' then
      if substrN view (pos + 2) = 'l' then
        if substrRN view (pos + 3) (pos + 7) = "ine ".toList then
          -- PATH: line LINE (bash)
          if (substrN view (pos + 7)).isDigit then
            some (substrN view (pos + 7) :: (readDigits view (pos + 8)).1, ['0'])
          else none
        else none
      else if (substrN view (pos + 2)).isDigit then
        -- PATH: LINE: (bash)
        if substrN view (readDigits view (pos + 3)).2 = ':' then
          some (substrN view (pos + 2) :: (readDigits view (pos + 3)).1, ['0'])
        else none
      else none
    else if (substrN view (pos + 1)).isDigit then
      -- PATH:LINE[:COL]
      if substrN view (readDigits view (pos + 2)).2 ≠ ':' then
        some (substrN view (pos + 1) :: (readDigits view (pos + 2)).1, ['0'])
      else if (substrN view ((readDigits view (pos + 2)).2 + 1)).isDigit then
        if (substrN view
              (readDigits view ((readDigits view (pos + 2)).2 + 2)).2).toNat ≤ 32
            ∨ substrN view
                (readDigits view ((readDigits view (pos + 2)).2 + 2)).2 = ':' then
          some (substrN view (pos + 1) :: (readDigits view (pos + 2)).1,
            substrN view ((readDigits view (pos + 2)).2 + 1)
              :: (readDigits view ((readDigits view (pos + 2)).2 + 2)).1)
        else
          -- avoid PATH:LINE:YEAR-MONTH-DAY (often found in logs)
          some (substrN view (pos + 1) :: (readDigits view (pos + 2)).1, ['0'])
      else some (substrN view (pos + 1) :: (readDigits view (pos + 2)).1, ['0'])
    else none
  else if substrN view pos = '"' then
    if substrRN view (pos + 1) (pos + 8) = ", line ".toList then
      -- "PATH", line LINE (Python)
      if (substrN view (pos + 8)).isDigit then
        some (substrN view (pos + 8) :: (readDigits view (pos + 9)).1, ['0'])
      else none
    else none
  else none

theorem select_longest_path_eq_fold (cs : List Candidate) :
    select_longest_path cs
      = (cs.foldl (selStep (fun c => c.path.length)) (none, -1)).1 := rfl

theorem select_longest_region_eq_fold (cs : List Candidate) :
    select_longest_region cs
      = (cs.foldl (selStep (fun c => c.region.size)) (none, -1)).1 := rfl

theorem selGo_spec (f : Candidate → Nat) :
    ∀ (cs : List Candidate) (r : Candidate),
      ∃ c l1 l2, r :: cs = l1 ++ c :: l2
        ∧ cs.foldl (selStep f) (some r, (f r : Int)) = (some c, (f c : Int))
        ∧ (∀ d ∈ l1, f d < f c) ∧ (∀ d ∈ r :: cs, f d ≤ f c)
  | [], r => ⟨r, [], [], rfl, rfl, by simp, by simp⟩
  | x :: cs, r => by
    rw [List.foldl_cons]
    by_cases hx : (f x : Int) > (f r : Int)
    · rw [show selStep f (some r, (f r : Int)) x = (some x, (f x : Int)) by
        simp [selStep, hx]]
      obtain ⟨c, l1, l2, hsplit, hfold, hl1, hall⟩ := selGo_spec f cs x
      have hxc : f x ≤ f c := hall x (by simp)
      have hrx : f r < f x := by exact_mod_cast hx
      refine ⟨c, r :: l1, l2, by rw [List.cons_append, ← hsplit], hfold, ?_, ?_⟩
      · intro d hd
        rcases List.mem_cons.mp hd with h | h
        · subst h; omega
        · exact hl1 d h
      · intro d hd
        rcases List.mem_cons.mp hd with h | h
        · subst h; omega
        · exact hall d h
    · rw [show selStep f (some r, (f r : Int)) x = (some r, (f r : Int)) by
        simp [selStep, hx]]
      obtain ⟨c, l1, l2, hsplit, hfold, hl1, hall⟩ := selGo_spec f cs r
      have hxr : f x ≤ f r := by
        have : ¬ ((f r : Int) < (f x : Int)) := hx
        exact_mod_cast Int.not_lt.mp this
      cases l1 with
      | nil =>
        have hc : c = r := by injection hsplit with h1 _; exact h1.symm
        subst hc
        refine ⟨c, [], x :: cs, rfl, hfold, by simp, ?_⟩
        intro d hd
        rcases List.mem_cons.mp hd with h | h
        · subst h; exact Nat.le_refl _
        · rcases List.mem_cons.mp h with h' | h'
          · subst h'; exact hxr
          · exact hall d (by simp [h'])
      | cons a l1' =>
        injection hsplit with h1 h2
        subst h1
        have hrc : f r < f c := hl1 r (by simp)
        refine ⟨c, r :: x :: l1', l2, by rw [h2]; rfl, hfold, ?_, ?_⟩
        · intro d hd
          rcases List.mem_cons.mp hd with h | h
          · subst h; exact hrc
          · rcases List.mem_cons.mp h with h' | h'
            · subst h'; omega
            · exact hl1 d (by simp [h'])
        · intro d hd
          rcases List.mem_cons.mp hd with h | h
          · subst h; exact hall _ (List.mem_cons_self _ _)
          · rcases List.mem_cons.mp h with h' | h'
            · subst h'; omega
            · exact hall d (List.mem_cons_of_mem _ h')

/-- Claim C6: on the empty sequence both selectors return none; on a
non-empty sequence `select_longest_region` returns the first-seen
candidate of maximal region size and `select_longest_path` the first-seen
candidate of maximal path length, ties always resolving to the earlier
candidate (every strictly earlier candidate measures strictly smaller). -/
theorem c6_select_longest (cs : List Candidate) :
    (select_longest_region [] = none ∧ select_longest_path [] = none)
    ∧ (cs ≠ [] → ∃ c l1 l2, cs = l1 ++ c :: l2
        ∧ select_longest_region cs = some c
        ∧ (∀ d ∈ l1, d.region.size < c.region.size)
        ∧ (∀ d ∈ cs, d.region.size ≤ c.region.size))
    ∧ (cs ≠ [] → ∃ c l1 l2, cs = l1 ++ c :: l2
        ∧ select_longest_path cs = some c
        ∧ (∀ d ∈ l1, d.path.length < c.path.length)
        ∧ (∀ d ∈ cs, d.path.length ≤ c.path.length)) := by
  refine ⟨⟨rfl, rfl⟩, ?_, ?_⟩
  · intro hne
    match cs, hne with
    | x :: cs', _ =>
      obtain ⟨c, l1, l2, hsplit, hfold, hl1, hall⟩ :=
        selGo_spec (fun c => c.region.size) cs' x
      refine ⟨c, l1, l2, hsplit, ?_, hl1, hall⟩
      rw [select_longest_region_eq_fold, List.foldl_cons,
        show selStep (fun c => c.region.size) (none, -1) x
            = (some x, (x.region.size : Int)) by
          simp [selStep]; omega,
        hfold]
  · intro hne
    match cs, hne with
    | x :: cs', _ =>
      obtain ⟨c, l1, l2, hsplit, hfold, hl1, hall⟩ :=
        selGo_spec (fun c => c.path.length) cs' x
      refine ⟨c, l1, l2, hsplit, ?_, hl1, hall⟩
      rw [select_longest_path_eq_fold, List.foldl_cons,
        show selStep (fun c => c.path.length) (none, -1) x
            = (some x, (x.path.length : Int)) by
          simp [selStep]; omega,
        hfold]

/-- Claim C6, witness: the non-empty-list conjuncts applied to a concrete
two-candidate list, showing a candidate is selected. -/
theorem c6_witness :
    ([⟨CandidateKind.fileFound, ⟨0, 3⟩, "/a".toList⟩,
      ⟨CandidateKind.fileFound, ⟨0, 5⟩, "/a/b".toList⟩] : List Candidate) ≠ []
    ∧ (select_longest_region
        [⟨CandidateKind.fileFound, ⟨0, 3⟩, "/a".toList⟩,
         ⟨CandidateKind.fileFound, ⟨0, 5⟩, "/a/b".toList⟩]).isSome = true
    ∧ (select_longest_path
        [⟨CandidateKind.fileFound, ⟨0, 3⟩, "/a".toList⟩,
         ⟨CandidateKind.fileFound, ⟨0, 5⟩, "/a/b".toList⟩]).isSome = true := by
  refine ⟨by decide, ?_, ?_⟩
  · obtain ⟨c, l1, l2, -, h, -, -⟩ :=
      (c6_select_longest
        [⟨CandidateKind.fileFound, ⟨0, 3⟩, "/a".toList⟩,
         ⟨CandidateKind.fileFound, ⟨0, 5⟩, "/a/b".toList⟩]).2.1 (by decide)
    rw [h]; rfl
  · obtain ⟨c, l1, l2, -, h, -, -⟩ :=
      (c6_select_longest
        [⟨CandidateKind.fileFound, ⟨0, 3⟩, "/a".toList⟩,
         ⟨CandidateKind.fileFound, ⟨0, 5⟩, "/a/b".toList⟩]).2.2 (by decide)
    rw [h]; rfl

/-- Claim C2, counterexample: `is_likely_path_char` returns true for the
left brace, the right brace and the percent sign, although the claim
asserts it returns false for all three. -/
theorem c2_counterexample :
    is_likely_path_char (Char.ofNat 123) = true
    ∧ is_likely_path_char (Char.ofNat 125) = true
    ∧ is_likely_path_char '%' = true := by
  decide

/-- Claim C2, amended: `is_likely_path_char c` is true exactly when `c` is
neither a control character nor a space (code point at most 32) nor one of
the fixed exclusion set, which contains neither brace nor the percent
sign, on every platform (the function has no OS-dependent branch). -/
theorem c2_likely_path_char_amended (c : Char) :
    is_likely_path_char c = true ↔ (32 < c.toNat ∧ c ∉ likelyPathExclusions) := by
  unfold is_likely_path_char
  split
  · constructor
    · intro h; exact absurd h (by simp)
    · intro h; omega
  · split
    · constructor
      · intro h; exact absurd h (by simp)
      · intro h; exact absurd (by assumption) h.2
    · constructor
      · intro _; exact ⟨by omega, by assumption⟩
      · intro _; rfl

theorem drop_cons_substrN :
    ∀ (view : List Char) (pos : Nat) (a : Char) (t : List Char),
      view.drop pos = a :: t → substrN view pos = a ∧ view.drop (pos + 1) = t := by
  intro view pos
  induction pos generalizing view with
  | zero =>
    intro a t h
    cases view with
    | nil => simp at h
    | cons x xs =>
      simp only [List.drop_zero] at h
      injection h with h1 h2
      subst h1; subst h2
      exact ⟨rfl, by simp⟩
  | succ n ih =>
    intro a t h
    cases view with
    | nil => simp at h
    | cons x xs =>
      rw [List.drop_succ_cons] at h
      obtain ⟨h1, h2⟩ := ih xs a t h
      refine ⟨h1, ?_⟩
      rw [show n + 1 + 1 = n + 1 + 1 from rfl, List.drop_succ_cons]
      exact h2

theorem readDigits_spec {view : List Char} :
    ∀ (L : List Char) (pos : Nat),
      (view.drop pos).take L.length = L →
      (∀ c ∈ L, c.isDigit = true) →
      (substrN view (pos + L.length)).isDigit = false →
      readDigits view pos = (L, pos + L.length) := by
  intro L
  induction L with
  | nil =>
    intro pos _ _ hstop
    rw [readDigits]
    simp only [List.length_nil, Nat.add_zero] at hstop
    simp [hstop]
  | cons c L' ih =>
    intro pos hread hdig hstop
    cases hvd : view.drop pos with
    | nil => rw [hvd] at hread; simp at hread
    | cons a t =>
      rw [hvd] at hread
      rw [List.length_cons, List.take_succ_cons] at hread
      injection hread with h1 h2
      obtain ⟨hsub, hdrop⟩ := drop_cons_substrN view pos a t hvd
      simp only [List.length_cons] at hstop
      have hrec : readDigits view (pos + 1) = (L', pos + 1 + L'.length) := by
        refine ih (pos + 1) ?_ (fun d hd => hdig d (List.mem_cons_of_mem _ hd)) ?_
        · rw [hdrop]; exact h2
        · rw [show pos + 1 + L'.length = pos + (L'.length + 1) by omega]
          exact hstop
      rw [readDigits]
      rw [dif_pos (by rw [hsub, h1]; exact hdig c (List.mem_cons_self _ _))]
      simp only [hrec, hsub, h1]
      refine Prod.ext rfl ?_
      simp only [List.length_cons]
      omega

/-- Claim C3: immediately after a matched path end, the parser recognizes
a colon followed by digits LINE (with a following character that is
neither a digit nor a colon) as line LINE with column zero; it recognizes
colon LINE colon COL as line and column exactly when the character
following COL has code point at most 32 or is a colon, and otherwise
discards COL and keeps only LINE; positions starting with neither a colon
nor a double quote parse to none, as does a colon followed by a character
that is neither a digit nor a space. -/
theorem c3_get_line_col (view : List Char) :
    (∀ pos L, substrN view pos = ':' →
      (view.drop (pos + 1)).take L.length = L → L ≠ [] →
      (∀ ch ∈ L, ch.isDigit = true) →
      (substrN view (pos + 1 + L.length)).isDigit = false →
      substrN view (pos + 1 + L.length) ≠ ':' →
      get_line_col view pos = some (L, ['0']))
    ∧ (∀ pos L C, substrN view pos = ':' →
      (view.drop (pos + 1)).take L.length = L → L ≠ [] →
      (∀ ch ∈ L, ch.isDigit = true) →
      substrN view (pos + 1 + L.length) = ':' →
      (view.drop (pos + 2 + L.length)).take C.length = C → C ≠ [] →
      (∀ ch ∈ C, ch.isDigit = true) →
      (substrN view (pos + 2 + L.length + C.length)).isDigit = false →
      get_line_col view pos =
        some (L, if (substrN view (pos + 2 + L.length + C.length)).toNat ≤ 32
                    ∨ substrN view (pos + 2 + L.length + C.length) = ':'
                 then C else ['0']))
    ∧ (∀ pos, substrN view pos ≠ ':' → substrN view pos ≠ '"' →
        get_line_col view pos = none)
    ∧ (∀ pos, substrN view pos = ':' → (substrN view (pos + 1)).isDigit = false →
        substrN view (pos + 1) ≠ ' ' → get_line_col view pos = none) := by
  have hline : ∀ pos L, (view.drop (pos + 1)).take L.length = L → L ≠ [] →
      (∀ ch ∈ L, ch.isDigit = true) →
      (substrN view (pos + 1 + L.length)).isDigit = false →
      ∃ c L', L = c :: L' ∧ substrN view (pos + 1) = c ∧ c.isDigit = true ∧
        readDigits view (pos + 2) = (L', pos + 1 + L.length) := by
    intro pos L hread hne hdig hstop
    cases L with
    | nil => exact absurd rfl hne
    | cons c L' =>
      cases hvd : view.drop (pos + 1) with
      | nil => rw [hvd] at hread; simp at hread
      | cons a t =>
        rw [hvd, List.length_cons, List.take_succ_cons] at hread
        injection hread with h1 h2
        obtain ⟨hsub, hdrop⟩ := drop_cons_substrN view (pos + 1) a t hvd
        simp only [List.length_cons] at hstop
        refine ⟨c, L', rfl, by rw [hsub]; exact h1,
          hdig c (List.mem_cons_self _ _), ?_⟩
        have hspec := readDigits_spec L' (pos + 2)
          (by rw [show pos + 2 = pos + 1 + 1 from rfl, hdrop]; exact h2)
          (fun d hd => hdig d (List.mem_cons_of_mem _ hd))
          (by rw [show pos + 2 + L'.length = pos + 1 + (L'.length + 1) by omega]
              exact hstop)
        rw [hspec]
        refine Prod.ext rfl ?_
        simp only [List.length_cons]
        omega
  refine ⟨?_, ?_, ?_, ?_⟩
  · intro pos L hcolon hread hne hdig hstop hnotcolon
    obtain ⟨c, L', hL, hsub, hcdig, hrd⟩ := hline pos L hread hne hdig hstop
    subst hL
    have hsp : ¬ substrN view (pos + 1) = ' ' := by
      rw [hsub]; intro h; rw [h] at hcdig; exact absurd hcdig (by decide)
    have hdg : (substrN view (pos + 1)).isDigit = true := by rw [hsub]; exact hcdig
    unfold get_line_col
    rw [if_pos hcolon, if_neg hsp, if_pos hdg]
    simp only [hrd, hsub]
    rw [if_pos hnotcolon]
  · intro pos L C hcolon hread hne hdig hcolon2 hreadC hneC hdigC hstopC
    obtain ⟨c, L', hL, hsub, hcdig, hrd⟩ := hline pos L hread hne hdig
      (by rw [hcolon2]; decide)
    obtain ⟨c2, C', hC, hsub2, hc2dig, hrd2⟩ := hline (pos + 1 + L.length) C
      (by rw [show pos + 1 + L.length + 1 = pos + 2 + L.length by omega]
          exact hreadC)
      hneC hdigC
      (by rw [show pos + 1 + L.length + 1 + C.length = pos + 2 + L.length + C.length
            by omega]
          exact hstopC)
    subst hL
    have hsp : ¬ substrN view (pos + 1) = ' ' := by
      rw [hsub]; intro h; rw [h] at hcdig; exact absurd hcdig (by decide)
    have hdg : (substrN view (pos + 1)).isDigit = true := by rw [hsub]; exact hcdig
    have hidx : pos + 1 + (c :: L').length + 1 + C.length
        = pos + 2 + (c :: L').length + C.length := by omega
    unfold get_line_col
    rw [if_pos hcolon, if_neg hsp, if_pos hdg]
    simp only [hrd, hsub]
    rw [if_neg (show ¬ substrN view (pos + 1 + (c :: L').length) ≠ ':' by
      intro h; exact h hcolon2)]
    rw [if_pos (show (substrN view (pos + 1 + (c :: L').length + 1)).isDigit = true by
      rw [hsub2]; exact hc2dig)]
    simp only [hrd2, hsub2]
    rw [hidx, hC]
    split
    · rfl
    · rfl
  · intro pos h1 h2
    unfold get_line_col
    rw [if_neg h1, if_neg h2]
  · intro pos hcolon hnd hns
    unfold get_line_col
    rw [if_pos hcolon, if_neg hns]
    rw [if_neg (show ¬ (substrN view (pos + 1)).isDigit = true by
      rw [hnd]; exact Bool.false_ne_true)]

/-- Claim C3, witness: the four conjuncts applied to concrete buffers — a
bare line number, a line and kept column, a line with the column discarded
before a date, and a non-matching buffer. -/
theorem c3_witness :
    get_line_col ":12".toList 0 = some ("12".toList, ['0'])
    ∧ get_line_col ":12:34 x".toList 0 = some ("12".toList, "34".toList)
    ∧ get_line_col ":12:2024-01-01".toList 0 = some ("12".toList, ['0'])
    ∧ get_line_col "abc".toList 0 = none
    ∧ get_line_col ":x".toList 0 = none := by
  refine ⟨?_, ?_, ?_, ?_, ?_⟩
  · exact (c3_get_line_col ":12".toList).1 0 "12".toList (by decide) (by decide)
      (by decide) (by decide) (by decide) (by decide)
  · have h := (c3_get_line_col ":12:34 x".toList).2.1 0 "12".toList "34".toList
      (by decide) (by decide) (by decide) (by decide) (by decide) (by decide)
      (by decide) (by decide) (by decide)
    rw [h]; decide
  · have h := (c3_get_line_col ":12:2024-01-01".toList).2.1 0 "12".toList "2024".toList
      (by decide) (by decide) (by decide) (by decide) (by decide) (by decide)
      (by decide) (by decide) (by decide)
    rw [h]
    rw [if_neg (by decide)]
  · exact (c3_get_line_col "abc".toList).2.2.1 0 (by decide) (by decide)
  · exact (c3_get_line_col ":x".toList).2.2.2 0 (by decide) (by decide) (by decide)

/-- Claim C9: the `AbsolutePath.__lt__` ancestor relation holds exactly
when the right operand's canonical form starts with the left operand's
canonical form followed by the path separator, and it is a strict partial
order: irreflexive and transitive. -/
theorem c9_ancestor_strict_partial_order :
    (∀ a b : AbsolutePath,
      AbsolutePath.lt a b = true ↔ (a.canonical ++ ['/']) <+: b.canonical)
    ∧ (∀ a : AbsolutePath, AbsolutePath.lt a a = false)
    ∧ (∀ a b c : AbsolutePath, AbsolutePath.lt a b = true →
        AbsolutePath.lt b c = true → AbsolutePath.lt a c = true) := by
  have hiff : ∀ a b : AbsolutePath,
      AbsolutePath.lt a b = true ↔ (a.canonical ++ ['/']) <+: b.canonical := by
    intro a b
    exact List.isPrefixOf_iff_prefix
  refine ⟨hiff, ?_, ?_⟩
  · intro a
    by_contra h
    have h' := (hiff a a).mp (by revert h; cases AbsolutePath.lt a a <;> simp)
    have := h'.length_le
    simp at this
  · intro a b c hab hbc
    have h1 := (hiff a b).mp hab
    have h2 := (hiff b c).mp hbc
    refine (hiff a c).mpr (List.IsPrefix.trans ?_ h2)
    exact h1.trans ⟨['/'], rfl⟩

/-- Claim C9, witness: the transitivity conjunct applied to three concrete
nested paths. -/
theorem c9_witness :
    AbsolutePath.lt ⟨"/a".toList⟩ ⟨"/a/b/c".toList⟩ = true :=
  c9_ancestor_strict_partial_order.2.2 ⟨"/a".toList⟩ ⟨"/a/b".toList⟩ ⟨"/a/b/c".toList⟩
    (by decide) (by decide)

theorem absolutePath_lt_irrefl (a : AbsolutePath) : AbsolutePath.lt a a = false := by
  rw [Bool.eq_false_iff]
  intro h
  have h' := List.isPrefixOf_iff_prefix.mp h
  have := h'.length_le
  simp at this

theorem absolutePath_lt_trans {a b c : AbsolutePath}
    (h1 : AbsolutePath.lt a b = true) (h2 : AbsolutePath.lt b c = true) :
    AbsolutePath.lt a c = true := by
  have h1' := List.isPrefixOf_iff_prefix.mp h1
  have h2' := List.isPrefixOf_iff_prefix.mp h2
  exact List.isPrefixOf_iff_prefix.mpr
    ((h1'.trans ⟨['/'], rfl⟩).trans h2')

theorem absolutePath_le_iff (a b : AbsolutePath) :
    AbsolutePath.le a b = true ↔ a = b ∨ AbsolutePath.lt a b = true := by
  simp [AbsolutePath.le]

theorem absolutePath_lt_of_le_of_lt {a b c : AbsolutePath}
    (h1 : AbsolutePath.le a b = true) (h2 : AbsolutePath.lt b c = true) :
    AbsolutePath.lt a c = true := by
  rcases (absolutePath_le_iff a b).mp h1 with h | h
  · subst h; exact h2
  · exact absolutePath_lt_trans h h2

theorem absolutePath_le_of_lt {a b : AbsolutePath}
    (h : AbsolutePath.lt a b = true) : AbsolutePath.le a b = true :=
  (absolutePath_le_iff a b).mpr (Or.inr h)

/-- Folder-pruning loop of `gidopen_in_view._setup_folders`: process the
window folders in order; a folder joins the kept list only when no
already-kept folder satisfies `f <= folder` and no later window folder
satisfies `f < folder`. -/
def setup_folders_view : List AbsolutePath → List AbsolutePath → List AbsolutePath
  | folders, [] => folders
  | folders, folder :: rest =>
    if folders.any (fun f => AbsolutePath.le f folder) then
      -- If a parent of this folder has appeared, do not keep
      setup_folders_view folders rest
    else if rest.any (fun f => AbsolutePath.lt f folder) then
      -- If a parent of this folder is yet to come, do not keep
      setup_folders_view folders rest
    else setup_folders_view (folders ++ [folder]) rest

/-- Folder-pruning loop of `gidopen_in_window._setup_folders`: textually
written with `folder >= f` and `folder > f`, which Python resolves through
the reflected comparisons since `AbsolutePath` defines neither `__ge__`
nor `__gt__`. -/
def setup_folders_window : List AbsolutePath → List AbsolutePath → List AbsolutePath
  | folders, [] => folders
  | folders, folder :: rest =>
    if folders.any (fun f => AbsolutePath.ge folder f) then
      -- If a parent of this folder has appeared, do not keep
      setup_folders_window folders rest
    else if rest.any (fun f => AbsolutePath.gt folder f) then
      -- If a parent of this folder is yet to come, do not keep
      setup_folders_window folders rest
    else setup_folders_window (folders ++ [folder]) rest

/-- Labelling pass of `gidopen_in_view._setup_folders`: the count of each
canonical basename is accumulated over every window folder (kept or not),
and a kept folder is labelled with its `basepath` when its canonical
basename has count one. -/
def setup_labels_view (window_folders : List AbsolutePath) :
    List (AbsolutePath × List Char) :=
  (setup_folders_view [] window_folders).filterMap (fun folder =>
    if window_folders.countP
        (fun f => f.canonical_base = folder.canonical_base) = 1 then
      some (folder, folder.basepath)
    else none)

/-- Labelling pass of `gidopen_in_window._setup_folders`, over the folders
kept by the window variant of the pruning loop. -/
def setup_labels_window (window_folders : List AbsolutePath) :
    List (AbsolutePath × List Char) :=
  (setup_folders_window [] window_folders).filterMap (fun folder =>
    if window_folders.countP
        (fun f => f.canonical_base = folder.canonical_base) = 1 then
      some (folder, folder.basepath)
    else none)

theorem setup_folders_view_subset :
    ∀ (rest kept : List AbsolutePath) (c : AbsolutePath),
      c ∈ setup_folders_view kept rest → c ∈ kept ∨ c ∈ rest := by
  intro rest
  induction rest with
  | nil => intro kept c h; exact Or.inl h
  | cons folder rest ih =>
    intro kept c h
    unfold setup_folders_view at h
    split at h
    · rcases ih kept c h with h' | h'
      · exact Or.inl h'
      · exact Or.inr (List.mem_cons_of_mem _ h')
    · split at h
      · rcases ih kept c h with h' | h'
        · exact Or.inl h'
        · exact Or.inr (List.mem_cons_of_mem _ h')
      · rcases ih (kept ++ [folder]) c h with h' | h'
        · rcases List.mem_append.mp h' with h'' | h''
          · exact Or.inl h''
          · simp at h''
            exact Or.inr (h'' ▸ List.mem_cons_self _ _)
        · exact Or.inr (List.mem_cons_of_mem _ h')

theorem setup_folders_view_kept_mem :
    ∀ (rest kept : List AbsolutePath) (c : AbsolutePath),
      c ∈ kept → c ∈ setup_folders_view kept rest := by
  intro rest
  induction rest with
  | nil => intro kept c h; exact h
  | cons folder rest ih =>
    intro kept c h
    unfold setup_folders_view
    split
    · exact ih kept c h
    · split
      · exact ih kept c h
      · exact ih (kept ++ [folder]) c (List.mem_append.mpr (Or.inl h))

theorem setup_folders_view_sound :
    ∀ (rest kept : List AbsolutePath),
      (∀ k ∈ kept, ∀ g, (g ∈ kept ∨ g ∈ rest) → AbsolutePath.lt g k = false) →
      ∀ c ∈ setup_folders_view kept rest,
        ∀ g, (g ∈ kept ∨ g ∈ rest) → AbsolutePath.lt g c = false := by
  intro rest
  induction rest with
  | nil =>
    intro kept hinv c hc g hg
    refine hinv c hc g ?_
    rcases hg with h | h
    · exact Or.inl h
    · simp at h
  | cons folder rest ih =>
    intro kept hinv c hc g hg
    unfold setup_folders_view at hc
    split at hc
    · rename_i hA
      have hres := ih kept
        (fun k hk g' hg' => hinv k hk g'
          (by rcases hg' with h | h
              · exact Or.inl h
              · exact Or.inr (List.mem_cons_of_mem _ h)))
        c hc
      rcases hg with h | h
      · exact hres g (Or.inl h)
      · rcases List.mem_cons.mp h with h' | h'
        · subst h'
          rw [Bool.eq_false_iff]
          intro hgc
          obtain ⟨k, hk, hkle⟩ := List.any_eq_true.mp hA
          have : AbsolutePath.lt k c = true := absolutePath_lt_of_le_of_lt hkle hgc
          rw [hres k (Or.inl hk)] at this
          exact Bool.false_ne_true this
        · exact hres g (Or.inr h')
    · split at hc
      · rename_i hB
        have hres := ih kept
          (fun k hk g' hg' => hinv k hk g'
            (by rcases hg' with h | h
                · exact Or.inl h
                · exact Or.inr (List.mem_cons_of_mem _ h)))
          c hc
        rcases hg with h | h
        · exact hres g (Or.inl h)
        · rcases List.mem_cons.mp h with h' | h'
          · subst h'
            rw [Bool.eq_false_iff]
            intro hgc
            obtain ⟨k, hk, hklt⟩ := List.any_eq_true.mp hB
            have : AbsolutePath.lt k c = true := absolutePath_lt_trans hklt hgc
            rw [hres k (Or.inr hk)] at this
            exact Bool.false_ne_true this
          · exact hres g (Or.inr h')
      · rename_i hA hB
        have hAfalse : ∀ h ∈ kept, AbsolutePath.le h folder = false := by
          intro h hh
          rw [Bool.eq_false_iff]
          intro hle
          exact hA (List.any_eq_true.mpr ⟨h, hh, hle⟩)
        have hBfalse : ∀ h ∈ rest, AbsolutePath.lt h folder = false := by
          intro h hh
          rw [Bool.eq_false_iff]
          intro hlt
          exact hB (List.any_eq_true.mpr ⟨h, hh, hlt⟩)
        have hres := ih (kept ++ [folder])
          (by
            intro k hk g' hg'
            rcases List.mem_append.mp hk with hk' | hk'
            · refine hinv k hk' g' ?_
              rcases hg' with h | h
              · rcases List.mem_append.mp h with h' | h'
                · exact Or.inl h'
                · simp at h'
                  exact Or.inr (h' ▸ List.mem_cons_self _ _)
              · exact Or.inr (List.mem_cons_of_mem _ h)
            · simp at hk'
              subst hk'
              rcases hg' with h | h
              · rcases List.mem_append.mp h with h' | h'
                · rw [Bool.eq_false_iff]
                  intro hlt
                  have hle := absolutePath_le_of_lt hlt
                  rw [hAfalse g' h'] at hle
                  exact Bool.false_ne_true hle
                · simp at h'
                  exact h' ▸ absolutePath_lt_irrefl _
              · exact hBfalse g' h)
          c hc
        rcases hg with h | h
        · exact hres g (Or.inl (List.mem_append.mpr (Or.inl h)))
        · rcases List.mem_cons.mp h with h' | h'
          · exact h' ▸ hres g (Or.inl (List.mem_append.mpr (Or.inr (by simp [h']))))
          · exact hres g (Or.inr h')

theorem setup_folders_view_complete :
    ∀ (rest kept : List AbsolutePath) (c : AbsolutePath), c ∈ rest →
      (∀ g ∈ kept, AbsolutePath.lt g c = false) →
      (∀ g ∈ rest, AbsolutePath.lt g c = false) →
      c ∈ setup_folders_view kept rest := by
  intro rest
  induction rest with
  | nil => intro kept c hc _ _; simp at hc
  | cons folder rest ih =>
    intro kept c hc hkept hrest
    unfold setup_folders_view
    rcases List.mem_cons.mp hc with hceq | hcmem
    · subst hceq
      split
      · rename_i hA
        obtain ⟨k, hk, hkle⟩ := List.any_eq_true.mp hA
        rcases (absolutePath_le_iff k c).mp hkle with h | h
        · subst h
          exact setup_folders_view_kept_mem rest kept k hk
        · rw [hkept k hk] at h
          exact absurd h Bool.false_ne_true
      · split
        · rename_i hB
          obtain ⟨k, hk, hklt⟩ := List.any_eq_true.mp hB
          rw [hrest k (List.mem_cons_of_mem _ hk)] at hklt
          exact absurd hklt Bool.false_ne_true
        · exact setup_folders_view_kept_mem rest (kept ++ [c]) c
            (List.mem_append.mpr (Or.inr (List.mem_singleton.mpr rfl)))
    · split
      · exact ih kept c hcmem hkept
          (fun g hg => hrest g (List.mem_cons_of_mem _ hg))
      · split
        · exact ih kept c hcmem hkept
            (fun g hg => hrest g (List.mem_cons_of_mem _ hg))
        · refine ih (kept ++ [folder]) c hcmem ?_
            (fun g hg => hrest g (List.mem_cons_of_mem _ hg))
          intro g hg
          rcases List.mem_append.mp hg with h | h
          · exact hkept g h
          · simp at h
            exact h ▸ hrest folder (List.mem_cons_self _ _)

/-- Claim C5: a folder is in the kept list exactly when it occurs among
the window folders and no window folder is its strict ancestor, so nested
workspace folders collapse to their outermost representative; since that
characterization depends only on the set of input folders, the kept list
is, as a set, independent of the input order. -/
theorem c5_folder_pruning (ws ws' : List AbsolutePath) (c : AbsolutePath)
    (hsame : ∀ x, x ∈ ws' ↔ x ∈ ws) :
    (c ∈ setup_folders_view [] ws
      ↔ c ∈ ws ∧ ∀ g ∈ ws, AbsolutePath.lt g c = false)
    ∧ (c ∈ setup_folders_view [] ws ↔ c ∈ setup_folders_view [] ws') := by
  have main : ∀ (l : List AbsolutePath) (d : AbsolutePath),
      d ∈ setup_folders_view [] l
        ↔ d ∈ l ∧ ∀ g ∈ l, AbsolutePath.lt g d = false := by
    intro l d
    constructor
    · intro hd
      refine ⟨?_, ?_⟩
      · rcases setup_folders_view_subset l [] d hd with h | h
        · simp at h
        · exact h
      · intro g hg
        refine setup_folders_view_sound l [] (by intro k hk; simp at hk) d hd g
          (Or.inr hg)
    · intro ⟨hd, hmin⟩
      exact setup_folders_view_complete l [] d hd (by intro g hg; simp at hg) hmin
  refine ⟨main ws c, ?_⟩
  rw [main ws c, main ws' c]
  constructor
  · intro ⟨h1, h2⟩
    exact ⟨(hsame c).mpr h1, fun g hg => h2 g ((hsame g).mp hg)⟩
  · intro ⟨h1, h2⟩
    exact ⟨(hsame c).mp h1, fun g hg => h2 g ((hsame g).mpr hg)⟩

/-- Claim C5, witness: pruning a nested pair of folders given in
child-first order keeps the outer folder, in both orders. -/
theorem c5_witness :
    (⟨"/a".toList⟩ : AbsolutePath)
      ∈ setup_folders_view [] [⟨"/a/b".toList⟩, ⟨"/a".toList⟩]
    ∧ (⟨"/a".toList⟩ : AbsolutePath)
      ∈ setup_folders_view [] [⟨"/a".toList⟩, ⟨"/a/b".toList⟩] := by
  have h := c5_folder_pruning [⟨"/a/b".toList⟩, ⟨"/a".toList⟩]
    [⟨"/a".toList⟩, ⟨"/a/b".toList⟩] ⟨"/a".toList⟩
    (by intro x; simp [List.mem_cons]; tauto)
  exact ⟨(h.1).mpr ⟨by decide, by decide⟩,
    (h.2).mp ((h.1).mpr ⟨by decide, by decide⟩)⟩

theorem setup_folders_view_eq_window :
    ∀ (rest kept : List AbsolutePath),
      setup_folders_view kept rest = setup_folders_window kept rest := by
  intro rest
  induction rest with
  | nil => intro kept; rfl
  | cons folder rest ih =>
    intro kept
    unfold setup_folders_view setup_folders_window
    simp only [AbsolutePath.ge, AbsolutePath.gt]
    split
    · exact ih kept
    · split
      · exact ih kept
      · exact ih (kept ++ [folder])

/-- Claim C10: the in-view pruning and labelling (written with the direct
comparisons) and the in-window pruning and labelling (written with the
reflected comparisons, which Python dispatches back to the same methods)
compute the same kept-folder list and the same label map on every input. -/
theorem c10_setup_folders_refinement (ws : List AbsolutePath) :
    setup_folders_view [] ws = setup_folders_window [] ws
    ∧ setup_labels_view ws = setup_labels_window ws := by
  refine ⟨setup_folders_view_eq_window ws [], ?_⟩
  unfold setup_labels_view setup_labels_window
  rw [setup_folders_view_eq_window ws []]

/-- Claim C8, counterexample: for the nested input folders with equal
basenames, only the outer folder is kept, its basename is unique among
the kept folders, and yet no label is assigned, because the source counts
basenames over all input folders rather than the kept ones. -/
theorem c8_counterexample :
    setup_folders_view [] [⟨"/x/n".toList⟩, ⟨"/x/n/s/n".toList⟩]
      = [⟨"/x/n".toList⟩]
    ∧ (setup_folders_view [] [⟨"/x/n".toList⟩, ⟨"/x/n/s/n".toList⟩]).countP
        (fun g => g.canonical_base
          = AbsolutePath.canonical_base ⟨"/x/n".toList⟩) = 1
    ∧ setup_labels_view [⟨"/x/n".toList⟩, ⟨"/x/n/s/n".toList⟩] = [] := by
  refine ⟨by decide, by decide, by decide⟩

/-- Claim C8, amended: a kept folder is assigned its basename as a short
label exactly when its canonical basename occurs exactly once among all
input window folders, pruned or not (not merely among the kept folders);
the label value is the folder basename. -/
theorem c8_folder_label_amended (ws : List AbsolutePath) (f : AbsolutePath)
    (hf : f ∈ setup_folders_view [] ws) :
    ((f, f.basepath) ∈ setup_labels_view ws
      ↔ ws.countP (fun g => g.canonical_base = f.canonical_base) = 1)
    ∧ ∀ l, (f, l) ∈ setup_labels_view ws → l = f.basepath := by
  constructor
  · constructor
    · intro hmem
      obtain ⟨g, hg, hsome⟩ := List.mem_filterMap.mp hmem
      by_cases hcount : ws.countP
          (fun h => h.canonical_base = g.canonical_base) = 1
      · rw [if_pos hcount] at hsome
        injection hsome with h1
        injection h1 with h2 h3
        subst h2
        exact hcount
      · rw [if_neg hcount] at hsome
        exact absurd hsome (Option.noConfusion)
    · intro hcount
      refine List.mem_filterMap.mpr ⟨f, hf, ?_⟩
      rw [if_pos hcount]
  · intro l hmem
    obtain ⟨g, hg, hsome⟩ := List.mem_filterMap.mp hmem
    by_cases hcount : ws.countP
        (fun h => h.canonical_base = g.canonical_base) = 1
    · rw [if_pos hcount] at hsome
      injection hsome with h1
      injection h1 with h2 h3
      exact h3.symm.trans (h2 ▸ rfl)
    · rw [if_neg hcount] at hsome
      exact absurd hsome (Option.noConfusion)

/-- Claim C8, witness: the amended label rule applied to a single concrete
folder, whose basename count over the input is one, yields its label. -/
theorem c8_witness :
    ((⟨"/w/proj".toList⟩ : AbsolutePath), "proj".toList)
      ∈ setup_labels_view [⟨"/w/proj".toList⟩] := by
  have h := c8_folder_label_amended [⟨"/w/proj".toList⟩] ⟨"/w/proj".toList⟩
    (by decide)
  exact (h.1).mpr (by decide)

/-- Fallback loop of `candidates_from_string` computing the
`FolderNotFound` target: starting from the dirname of the fragment, climb
to the parent while the current path is not the root and its parent is not
a directory. The fuel argument bounds the climb; the call sites pass the
path length, which the dirname chain of a well-formed absolute path never
exceeds. -/
def folderNotFoundTarget (fs : FS) : Nat → List Char → List Char
  | 0, path => path
  | fuel + 1, path =>
    if !is_path_root path && !fs.isDir (posixDirname path) then
      folderNotFoundTarget fs fuel (posixDirname path)
    else path

/-- `candidates_from_string` from `gidopen.py`: the candidates yielded for
a raw text fragment, first for the tilde-expanded form when environment
expansion changes the text, then for the fully expanded form. The
`print`-and-skip branches for unreadable files yield nothing. -/
def candidates_from_string (fs : FS) (env : Env) (text : List Char)
    (folders : List (List Char)) (region : Region) : List Candidate :=
  let path := expanduser env text
  let expanded := expanduser env (env.expandvars text)
  let first :=
    if path ≠ expanded then
      if isabs path then
        if fs.isFile path then
          if fs.readable path then [⟨CandidateKind.fileFound, region, path⟩] else []
        else if fs.isDir path then [⟨CandidateKind.folderFound, region, path⟩]
        else if fs.isDir (posixDirname path) then
          [⟨CandidateKind.fileNotFound, region, path⟩]
        else [⟨CandidateKind.folderNotFound, region,
          folderNotFoundTarget fs path.length (posixDirname path)⟩]
      else
        folders.flatMap (fun folder =>
          let abspath := normpath (pathjoin folder path)
          if fs.isFile abspath then
            if fs.readable abspath then [⟨CandidateKind.fileFound, region, abspath⟩]
            else []
          else if fs.isDir path then
            -- the source tests `os.path.isdir(path)` and yields the
            -- unexpanded relative `path` here, unlike the parallel branch
            -- below which uses the folder-joined `abspath`
            [⟨CandidateKind.folderFound, region, path⟩]
          else [])
    else []
  let second :=
    if isabs expanded then
      if fs.isFile expanded then
        if fs.readable expanded then [⟨CandidateKind.fileFound, region, expanded⟩]
        else []
      else if fs.isDir expanded then [⟨CandidateKind.folderFound, region, expanded⟩]
      else if fs.isDir (posixDirname expanded) then
        [⟨CandidateKind.fileNotFound, region, expanded⟩]
      else [⟨CandidateKind.folderNotFound, region,
        folderNotFoundTarget fs expanded.length (posixDirname expanded)⟩]
    else
      folders.flatMap (fun folder =>
        let abspath := normpath (pathjoin folder expanded)
        if fs.isFile abspath then
          if fs.readable abspath then [⟨CandidateKind.fileFound, region, abspath⟩]
          else []
        else if fs.isDir abspath then [⟨CandidateKind.folderFound, region, abspath⟩]
        else [])
  first ++ second

/-- Filesystem for the C7 evaluation: no files, no readable entries, and a
single directory whose name, relative to the process working directory, is
the literal unexpanded fragment. -/
def fsC7 : FS where
  isFile := fun _ => false
  isDir := fun p => p = "$V/d".toList
  readable := fun _ => false
  listdir := fun _ => []

/-- Environment for the C7 evaluation: the variable V expands, so the
expanded form differs from the raw fragment. -/
def envC7 : Env where
  expandvars := fun s => if s = "$V/d".toList then "v/d".toList else s
  expandtilde := fun s => s

/-- Claim C7, evaluation at the failing input: for the relative fragment
containing an environment variable, `candidates_from_string` yields a
`FolderFound` candidate that carries the raw relative fragment, not an
absolute path. -/
theorem c7_relative_folder_found_eval :
    candidates_from_string fsC7 envC7 "$V/d".toList ["/base".toList] ⟨0, 0⟩
      = [⟨CandidateKind.folderFound, ⟨0, 0⟩, "$V/d".toList⟩]
    ∧ isabs "$V/d".toList = false := by decide

theorem expanduser_of_isabs (env : Env) {p : List Char} (h : isabs p = true) :
    expanduser env p = p := by
  have h' : p.head? = some '/' := of_decide_eq_true h
  simp [expanduser, h']

/-- Left loop of `expand_path`: move the lower bound left while the
preceding character is a likely path character. Fuel: the bound itself. -/
def expand_path_left (view : List Char) : Nat → Int → Int
  | 0, b => b
  | fuel + 1, b =>
    if b > 0 ∧ is_likely_path_char (substrP view (b - 1)) = true then
      expand_path_left view fuel (b - 1)
    else b

/-- Right loop of `expand_path`: move the upper bound right while the
character there is a likely path character. Fuel: distance to the end. -/
def expand_path_right (view : List Char) : Nat → Int → Int
  | 0, e => e
  | fuel + 1, e =>
    if e < (view.length : Int) ∧ is_likely_path_char (substrP view e) = true then
      expand_path_right view fuel (e + 1)
    else e

/-- `expand_path` from `gidopen.py`: grow the window outward over likely
path characters, stopping at the buffer boundaries. -/
def expand_path (view : List Char) (b e : Int) : Int × Int :=
  (expand_path_left view b.toNat b,
   expand_path_right view ((view.length : Int) - e).toNat e)

/-- Scanning loop of `gidopen_in_view._expand_right`: extend the end until
the read text's canonical length reaches the suffix's canonical length or
the buffer ends. -/
def expand_right_loop (view : List Char) (b : Int) (slen : Nat) : Nat → Int → Int
  | 0, e => e
  | fuel + 1, e =>
    if e < (view.length : Int) ∧ (ppCanonical (substrR view b e)).length < slen then
      expand_right_loop view b slen fuel (e + 1)
    else e

/-- `gidopen_in_view._expand_right`: read forward from the region end as
many characters as canonically match the suffix; return the widened region
only when the read text canonically equals the suffix. -/
def expand_right (view : List Char) (prefix_region : Region) (suffix : List Char) :
    Option Region :=
  let b := prefix_region.stop
  let scanon := ppCanonical suffix
  let e := expand_right_loop view b scanon.length
    ((view.length : Int) - (b + (scanon.length : Int))).toNat
    (b + (scanon.length : Int))
  if ppCanonical (substrR view b e) = scanon then
    some ⟨prefix_region.start, e⟩
  else none

/-- Backward loop of `gidopen_in_view._expand_left`: consume separators,
doubled separators and dot-slash self references, and directory components
of `dirname` (innermost first) while the buffer text canonically matches;
return the match start reached. Fuel: the start position plus one, which
bounds the number of backward steps. -/
def expand_left_loop (view : List Char) : Nat → List Char → Int → Int → Int
  | 0, _, match_start, _ => match_start
  | fuel + 1, dirname, match_start, pos =>
    if is_path_root dirname = false ∧ 0 ≤ pos
        ∧ is_path_sep (substrP view pos) = true then
      if 1 ≤ pos ∧ is_path_sep (substrP view (pos - 1)) = true then
        expand_left_loop view fuel dirname match_start (pos - 1)
      else if 2 ≤ pos ∧ is_path_sep (substrP view (pos - 2)) = true
          ∧ substrP view (pos - 1) = '.' then
        expand_left_loop view fuel dirname match_start (pos - 2)
      else
        let base := posixBasename dirname
        let blen := (base.length : Int)
        if pos < blen then match_start
        else if ppCanonical (substrR view (pos - blen) pos) ≠ ppCanonical base then
          match_start
        else expand_left_loop view fuel (posixDirname dirname) (pos - blen)
          (pos - blen - 1)
    else match_start

/-- `gidopen_in_view._expand_left`: expand a basename-matching region to
the left over the directory components of `dirname` that the buffer text
supports. -/
def expand_left (view : List Char) (region : Region) (dirname : List Char) : Region :=
  ⟨expand_left_loop view (region.start.toNat + 1) dirname region.start
      (region.start - 1),
   region.stop⟩

/-- The `os.walk` body of `gidopen_in_view.all_matching_descendants`: at
each directory, excluded subdirectory names are pruned, matching
subdirectories are yielded and descended into, and matching readable files
are yielded; regions always extend the original `folder_region` by the
path suffix past the original root (whose length is `dlen`). -/
def all_matching_descendants_walk (fs : FS) (excludes : List (List Char))
    (view : List Char) (dlen : Nat) (folder_region : Region) :
    Nat → List Char → List Candidate
  | 0, _ => []
  | fuel + 1, dirpath =>
    let entries := fs.listdir dirpath
    let dirnames := entries.filter (fun n => fs.isDir (pathjoin dirpath n))
    let filenames := entries.filter (fun n => !fs.isDir (pathjoin dirpath n))
    let dirSteps := dirnames.map (fun dirname =>
      let path := pathjoin dirpath dirname
      if dirname ∈ excludes then (([] : List Candidate), (none : Option (List Char)))
      else
        match expand_right view folder_region (path.drop dlen) with
        | some region =>
          ([⟨CandidateKind.folderFound, region, path⟩], some dirname)
        | none => ([], none))
    let fileYields := filenames.flatMap (fun filename =>
      let path := pathjoin dirpath filename
      match expand_right view folder_region (path.drop dlen) with
      | some region =>
        if fs.readable path then [⟨CandidateKind.fileFound, region, path⟩] else []
      | none => [])
    dirSteps.flatMap (fun s => s.1) ++ fileYields
      ++ (dirSteps.filterMap (fun s => s.2)).flatMap (fun dirname =>
          all_matching_descendants_walk fs excludes view dlen folder_region fuel
            (pathjoin dirpath dirname))

/-- `gidopen_in_view.all_matching_descendants`. -/
def all_matching_descendants (fs : FS) (excludes : List (List Char))
    (view : List Char) (fuel : Nat) (folder_path : List Char)
    (folder_region : Region) : List Candidate :=
  all_matching_descendants_walk fs excludes view folder_path.length folder_region
    fuel folder_path

/-- Body of the listing loop of `gidopen_in_view.all_files_prefixed_by`,
processing one directory entry against the running accumulator of yielded
candidates and the found flag. -/
def afpb_step (fs : FS) (excludes : List (List Char)) (view : List Char)
    (fuel : Nat) (d p pfx : List Char) (prefix_region : Region)
    (acc : List Candidate × Bool) (name : List Char) : List Candidate × Bool :=
  if p.isPrefixOf name then
    let path := pathjoin d name
    match expand_right view prefix_region (path.drop pfx.length) with
    | some region =>
      if fs.isDir path then
        if name ∈ excludes then acc
        else
          (acc.1 ++ ⟨CandidateKind.folderFound, region, path⟩
            :: (if is_path_sep (substrP view region.stop) = true then
                  all_matching_descendants fs excludes view fuel path region
                else []),
           true)
      else
        if fs.readable path then
          (acc.1 ++ [⟨CandidateKind.fileFound, region, path⟩], true)
        else acc
    | none => acc
  else acc

/-- `gidopen_in_view.all_files_prefixed_by`: list the parent directory of
the prefix and match every entry whose name starts with the basename
fragment; matching folders are yielded (descending when the buffer
continues with a separator), matching readable files are yielded, and the
returned flag records whether anything was found. On POSIX `normcase` is
the identity, so the name comparison is a plain prefix test. -/
def all_files_prefixed_by (fs : FS) (excludes : List (List Char))
    (view : List Char) (fuel : Nat) (pfx : List Char)
    (prefix_region : Region) : List Candidate × Bool :=
  if fs.isDir (posixDirname pfx) then
    (fs.listdir (posixDirname pfx)).foldl
      (afpb_step fs excludes view fuel (posixDirname pfx) (posixBasename pfx)
        pfx prefix_region)
      ([], false)
  else ([], false)

/-- `gidopen_in_view.check_absolute_path`: run the prefix search for a
rooted fragment, or for a tilde fragment whose user directory resolves. -/
def check_absolute_path (fs : FS) (env : Env) (excludes : List (List Char))
    (view : List Char) (fuel : Nat) (region : Region) (path : List Char) :
    List Candidate × Bool :=
  if isabs path then
    all_files_prefixed_by fs excludes view fuel (normpath path) region
  else if path.head? = some '~' then
    if expanduser env path ≠ path then
      all_files_prefixed_by fs excludes view fuel
        (normpath (expanduser env path)) region
    else ([], false)
  else ([], false)

/-- `gidopen_in_view._folder_iterate`: every kept folder, then the working
directory, depending on whether it coincides with or sits below a kept
folder and on the flag. -/
def folder_iterate (folders : List AbsolutePath) (pwd : AbsolutePath)
    (yield_pwd_in_folder : Bool) : List AbsolutePath :=
  let pwd_is_folder := folders.any (fun folder => folder = pwd)
  let pwd_in_folder := folders.any (fun folder =>
    ¬ folder = pwd ∧ AbsolutePath.lt folder pwd = true)
  folders ++
    (if pwd_in_folder then (if yield_pwd_in_folder then [pwd] else [])
     else if !pwd_is_folder then [pwd] else [])

/-- `gidopen_in_view._search_contains`: in each search folder's direct
listing, match the basename as a substring of an entry name at every
offset, verify the corresponding buffer text canonically equals the entry
name, and yield the entry (descending into matching folders followed by a
separator). `str(folder)` is the raw path, which on POSIX coincides with
the canonical form for the normalized inputs modelled here. -/
def search_contains (fs : FS) (excludes : List (List Char)) (view : List Char)
    (fuel : Nat) (folders : List AbsolutePath) (pwd : AbsolutePath)
    (region : Region) (basename : List Char) : List Candidate :=
  let b := region.start
  (folder_iterate folders pwd true).flatMap (fun folder =>
    let folder := folder.canonical
    (fs.listdir folder).flatMap (fun name =>
      let fullpath := pathjoin folder name
      (find_all basename name).flatMap (fun idx =>
        let text_start := b - (idx : Int)
        let text_end := text_start + (name.length : Int)
        let text_region : Region := ⟨text_start, text_end⟩
        let text := substrR view text_start text_end
        if ppCanonical text = ppCanonical name then
          if fs.isDir fullpath then
            ⟨CandidateKind.folderFound, text_region, fullpath⟩
              :: (if is_path_sep (substrP view text_end) = true then
                    all_matching_descendants fs excludes view fuel fullpath
                      text_region
                  else [])
          else if fs.isFile fullpath then
            if fs.readable fullpath then
              [⟨CandidateKind.fileFound, text_region, fullpath⟩]
            else []
          else []
        else [])))

/-- The `os.walk` body of the second phase of
`gidopen_in_view._search_prefix`: walk a folder's subtree, keeping the
working directory (without re-searching it), pruning excluded names, and
running the absolute-prefix search rooted at every other subdirectory. -/
def search_prefix_walk (fs : FS) (env : Env) (excludes : List (List Char))
    (view : List Char) (pwd : AbsolutePath) (basename : List Char)
    (region : Region) : Nat → List Char → List Candidate
  | 0, _ => []
  | fuel + 1, dirpath =>
    let entries := fs.listdir dirpath
    let dirnames := entries.filter (fun n => fs.isDir (pathjoin dirpath n))
    let steps := dirnames.map (fun dirname =>
      let path := pathjoin dirpath dirname
      if AbsolutePath.ofString env path = pwd then
        -- already searched in pwd, but still need to search below pwd
        (([] : List Candidate), some dirname)
      else if dirname ∈ excludes then ([], none)
      else
        ((all_files_prefixed_by fs excludes view fuel
            (pathjoin path basename) region).1, some dirname))
    steps.flatMap (fun s => s.1)
      ++ (steps.filterMap (fun s => s.2)).flatMap (fun dirname =>
          search_prefix_walk fs env excludes view pwd basename region fuel
            (pathjoin dirpath dirname))

/-- `gidopen_in_view._search_prefix` (the name carries a suffix here for
lexical reasons): first match the basename fragment as a name prefix in
each search folder's direct listing, then recursively search below each
folder that is not at or above the home directory. -/
def search_prefixed (fs : FS) (env : Env) (excludes : List (List Char))
    (view : List Char) (fuel : Nat) (folders : List AbsolutePath)
    (pwd home : AbsolutePath) (region : Region) (basename : List Char) :
    List Candidate :=
  let part1 := (folder_iterate folders pwd true).flatMap (fun folder =>
    let folder := folder.canonical
    if fs.isDir folder then
      let pfx := pathjoin folder basename
      (fs.listdir folder).flatMap (fun name =>
        if basename.isPrefixOf name then
          let path := pathjoin folder name
          match expand_right view region (path.drop pfx.length) with
          | some cregion =>
            if fs.isDir path then
              if name ∈ excludes then []
              else [⟨CandidateKind.folderFound, cregion, path⟩]
            else
              if fs.readable path then [⟨CandidateKind.fileFound, cregion, path⟩]
              else []
          | none => []
        else [])
    else [])
  let part2 := (folder_iterate folders pwd false).flatMap (fun folder =>
    if AbsolutePath.le folder home then
      -- too big to search recursively
      []
    else search_prefix_walk fs env excludes view pwd basename region fuel
      folder.canonical)
  part1 ++ part2

/-- The dot-slash acceptance test of `gidopen_in_view._handle_click_point`
for matches whose leftward expansion captured nothing: the region must be
immediately preceded by a dot and a separator, themselves not preceded by
a likely path character. -/
def dot_slash_guard (view : List Char) (b : Int) : Bool :=
  if b = 2 then
    substrP view 0 = '.' ∧ is_path_sep (substrP view 1) = true
  else if b > 2 then
    is_likely_path_char (substrP view (b - 3)) = false
      ∧ substrP view (b - 2) = '.' ∧ is_path_sep (substrP view (b - 1)) = true
  else false

/-- The per-candidate filter of the separator-containing branch of
`gidopen_in_view._handle_click_point`: expand each match leftward; a match
whose region is unchanged is yielded only under the dot-slash guard, an
expanded match is yielded with its updated region. -/
def prefix_branch_filter (view : List Char) (cands : List Candidate) :
    List Candidate :=
  cands.flatMap (fun candidate =>
    let region := expand_left view candidate.region (posixDirname candidate.path)
    if region = candidate.region then
      -- a pathname-like string matching only the basename and no parent
      -- folders is likely a coincidental use of similar names
      if dot_slash_guard view region.start then [candidate] else []
    else [⟨candidate.kind, region, candidate.path⟩])

/-- Boundary computation of `gidopen_in_view._handle_click_point`: expand
around the click point; when the window is empty, retry nudged one
character left, then one character right. -/
def click_bounds (view : List Char) (click_point : Int) : Int × Int :=
  let be := expand_path view click_point click_point
  if be.1 = be.2 then
    let be2 := if be.1 ≠ 0 then expand_path view (be.1 - 1) be.1 else be
    if be2.2 < (view.length : Int) ∧ be2.2 - be2.1 < 2 then
      expand_path view be2.2 (be2.2 + 1)
    else be2
  else be

/-- `gidopen_in_view._handle_click_point` on POSIX (the Windows
drive-letter branch does not exist in this configuration): delimit the
fragment, try the absolute and environment-expanded interpretations
(stopping after the first that finds anything), then fall back to the
basename-only search when the fragment has no separator (yields mapped
through leftward expansion, unconditionally) or to the prefixed search
otherwise (yields passed through the dot-slash filter). -/
def handle_click_point (fs : FS) (env : Env) (excludes : List (List Char))
    (folders : List AbsolutePath) (pwd home : AbsolutePath) (view : List Char)
    (fuel : Nat) (click_point : Int) : List Candidate :=
  let be := click_bounds view click_point
  let b := be.1
  let path := rstrip (substrR view b be.2) ['/', '.']
  if path = [] then []
  else
    let e := b + (path.length : Int)
    let region : Region := ⟨b, e⟩
    let basename := posixBasename path
    let r1 := check_absolute_path fs env excludes view fuel region path
    r1.1 ++
      (if r1.2 then []
       else
        let expanded := env.expandvars path
        let r2 :=
          if expanded ≠ path then
            check_absolute_path fs env excludes view fuel region expanded
          else (([] : List Candidate), false)
        r2.1 ++
          (if r2.2 then []
           else if basename = path then
            (search_contains fs excludes view fuel folders pwd region basename).map
              (fun candidate =>
                ⟨candidate.kind,
                 expand_left view candidate.region (posixDirname candidate.path),
                 candidate.path⟩)
           else
            prefix_branch_filter view
              (search_prefixed fs env excludes view fuel folders pwd home
                ⟨e - (basename.length : Int), e⟩ basename)))

/-- Identity environment: no variables expand, no tilde resolves. -/
def envId : Env where
  expandvars := fun s => s
  expandtilde := fun s => s

/-- Filesystem for the C1 evaluation: a working directory containing a
single readable file named by the clicked fragment. -/
def fsC1 : FS where
  isFile := fun p => p = "/pwd/present".toList
  isDir := fun p => p = "/pwd".toList
  readable := fun p => p = "/pwd/present".toList
  listdir := fun p => if p = "/pwd".toList then ["present".toList] else []

/-- Claim C1, counterexample: clicking inside the bare basename fragment
at the very start of the buffer — with no dot-slash marker before it and a
leftward expansion that captures no directory component — still yields the
matching file as a candidate, because the basename-only branch yields
unconditionally; the dot-slash guard evaluates to false at that position. -/
theorem c1_counterexample :
    handle_click_point fsC1 envId [] [] ⟨"/pwd".toList⟩ ⟨"/home/u".toList⟩
        "present x".toList 5 3
      = [⟨CandidateKind.fileFound, ⟨0, 7⟩, "/pwd/present".toList⟩]
    ∧ posixBasename "present".toList = "present".toList
    ∧ expand_left "present x".toList ⟨0, 7⟩
        (posixDirname "/pwd/present".toList) = ⟨0, 7⟩
    ∧ dot_slash_guard "present x".toList 0 = false := by
  refine ⟨by decide, by decide, by decide, by decide⟩

/-- Claim C1, amended: the dot-slash acceptance rule applies to the
prefixed search (fragment containing a directory separator), not to the
basename-only search: a candidate from that branch whose leftward
expansion leaves its region unchanged is yielded exactly when the
dot-slash guard holds at its region start, while an expanded candidate is
always yielded with the widened region; the basename-only branch yields
every verified match after leftward expansion with no dot-slash
requirement. -/
theorem c1_prefix_branch_guard (view : List Char) (cands : List Candidate)
    (c : Candidate) :
    c ∈ prefix_branch_filter view cands
      ↔ ∃ c0 ∈ cands,
          (expand_left view c0.region (posixDirname c0.path) = c0.region
            ∧ dot_slash_guard view c0.region.start = true ∧ c = c0)
          ∨ (expand_left view c0.region (posixDirname c0.path) ≠ c0.region
            ∧ c = ⟨c0.kind, expand_left view c0.region (posixDirname c0.path),
                   c0.path⟩) := by
  simp only [prefix_branch_filter, List.mem_flatMap]
  constructor
  · rintro ⟨c0, hc0, hmem⟩
    refine ⟨c0, hc0, ?_⟩
    by_cases heq : expand_left view c0.region (posixDirname c0.path) = c0.region
    · rw [heq, if_pos rfl] at hmem
      by_cases hg : dot_slash_guard view c0.region.start = true
      · rw [if_pos hg] at hmem
        exact Or.inl ⟨heq, hg, List.mem_singleton.mp hmem⟩
      · rw [if_neg hg] at hmem
        simp at hmem
    · rw [if_neg heq] at hmem
      exact Or.inr ⟨heq, List.mem_singleton.mp hmem⟩
  · rintro ⟨c0, hc0, h | h⟩
    · obtain ⟨heq, hg, hc⟩ := h
      refine ⟨c0, hc0, ?_⟩
      rw [heq, if_pos rfl, if_pos hg]
      exact List.mem_singleton.mpr hc
    · obtain ⟨heq, hc⟩ := h
      refine ⟨c0, hc0, ?_⟩
      rw [if_neg heq]
      exact List.mem_singleton.mpr hc

/-- Claim C1, witness for the amended rule: on a concrete buffer whose
fragment is preceded by a dot-slash marker, a zero-expansion candidate
passes the filter under the dot-slash guard. -/
theorem c1_amended_witness :
    (⟨CandidateKind.fileFound, ⟨2, 9⟩, "/pwd/present".toList⟩ : Candidate)
      ∈ prefix_branch_filter "./present".toList
          [⟨CandidateKind.fileFound, ⟨2, 9⟩, "/pwd/present".toList⟩] := by
  refine (c1_prefix_branch_guard "./present".toList
    [⟨CandidateKind.fileFound, ⟨2, 9⟩, "/pwd/present".toList⟩]
    ⟨CandidateKind.fileFound, ⟨2, 9⟩, "/pwd/present".toList⟩).mpr ?_
  refine ⟨⟨CandidateKind.fileFound, ⟨2, 9⟩, "/pwd/present".toList⟩, by decide, ?_⟩
  exact Or.inl ⟨by decide, by decide, rfl⟩

/-- Soundness of the found candidates: a candidate is a found directory or
a found readable file according to the injected filesystem. -/
def found_sound (fs : FS) (c : Candidate) : Prop :=
  (c.kind = CandidateKind.folderFound ∧ fs.isDir c.path = true)
  ∨ (c.kind = CandidateKind.fileFound ∧ fs.readable c.path = true)

theorem foldl_preserve {α : Type} (step : List Candidate × Bool → α → List Candidate × Bool)
    (P : Candidate → Prop)
    (hstep : ∀ acc x, (∀ c ∈ acc.1, P c) → ∀ c ∈ (step acc x).1, P c) :
    ∀ (l : List α) (acc : List Candidate × Bool),
      (∀ c ∈ acc.1, P c) → ∀ c ∈ (l.foldl step acc).1, P c := by
  intro l
  induction l with
  | nil => intro acc h; exact h
  | cons x xs ih =>
    intro acc h
    rw [List.foldl_cons]
    exact ih _ (hstep acc x h)

theorem all_matching_descendants_walk_sound (fs : FS) (excludes : List (List Char))
    (view : List Char) (dlen : Nat) (folder_region : Region) :
    ∀ (fuel : Nat) (dirpath : List Char) (c : Candidate),
      c ∈ all_matching_descendants_walk fs excludes view dlen folder_region fuel
            dirpath →
      found_sound fs c := by
  intro fuel
  induction fuel with
  | zero =>
    intro dirpath c hc
    simp [all_matching_descendants_walk] at hc
  | succ fuel ih =>
    intro dirpath c hc
    simp only [all_matching_descendants_walk] at hc
    rw [List.mem_append, List.mem_append] at hc
    rcases hc with (hc | hc) | hc
    · rw [List.mem_flatMap] at hc
      obtain ⟨s, hs, hcs⟩ := hc
      rw [List.mem_map] at hs
      obtain ⟨dirname, hdn, hsdef⟩ := hs
      subst hsdef
      by_cases hex : dirname ∈ excludes
      · rw [if_pos hex] at hcs
        simp at hcs
      · rw [if_neg hex] at hcs
        cases her : expand_right view folder_region
            ((pathjoin dirpath dirname).drop dlen) with
        | none => rw [her] at hcs; simp at hcs
        | some region =>
          rw [her] at hcs
          simp at hcs
          subst hcs
          exact Or.inl ⟨rfl, (List.mem_filter.mp hdn).2⟩
    · rw [List.mem_flatMap] at hc
      obtain ⟨filename, hfn, hcf⟩ := hc
      cases her : expand_right view folder_region
          ((pathjoin dirpath filename).drop dlen) with
      | none => rw [her] at hcf; simp at hcf
      | some region =>
        rw [her] at hcf
        simp only [] at hcf
        by_cases hr : fs.readable (pathjoin dirpath filename) = true
        · rw [if_pos hr] at hcf
          simp at hcf
          subst hcf
          exact Or.inr ⟨rfl, hr⟩
        · rw [if_neg hr] at hcf
          simp at hcf
    · rw [List.mem_flatMap] at hc
      obtain ⟨dirname, _, hcrec⟩ := hc
      exact ih _ c hcrec

theorem afpb_step_sound (fs : FS) (excludes : List (List Char)) (view : List Char)
    (fuel : Nat) (d p pfx : List Char) (prefix_region : Region) :
    ∀ (acc : List Candidate × Bool) (name : List Char),
      (∀ c ∈ acc.1, found_sound fs c) →
      ∀ c ∈ (afpb_step fs excludes view fuel d p pfx prefix_region acc name).1,
        found_sound fs c := by
  intro acc name hacc c hc
  simp only [afpb_step] at hc
  by_cases hpre : p.isPrefixOf name = true
  · rw [if_pos hpre] at hc
    cases her : expand_right view prefix_region ((pathjoin d name).drop pfx.length)
      with
    | none =>
      rw [her] at hc
      simp only [] at hc
      exact hacc c hc
    | some region =>
      rw [her] at hc
      simp only [] at hc
      by_cases hdir : fs.isDir (pathjoin d name) = true
      · rw [if_pos hdir] at hc
        by_cases hex : name ∈ excludes
        · rw [if_pos hex] at hc; exact hacc c hc
        · rw [if_neg hex] at hc
          simp only [] at hc
          rw [List.mem_append] at hc
          rcases hc with hc | hc
          · exact hacc c hc
          · rw [List.mem_cons] at hc
            rcases hc with hc | hc
            · subst hc; exact Or.inl ⟨rfl, hdir⟩
            · split at hc
              · exact all_matching_descendants_walk_sound fs excludes view _ _ _ _
                  c hc
              · simp at hc
      · rw [if_neg hdir] at hc
        by_cases hr : fs.readable (pathjoin d name) = true
        · rw [if_pos hr] at hc
          simp only [] at hc
          rw [List.mem_append] at hc
          rcases hc with hc | hc
          · exact hacc c hc
          · rw [List.mem_singleton] at hc
            subst hc
            exact Or.inr ⟨rfl, hr⟩
        · rw [if_neg hr] at hc
          exact hacc c hc
  · rw [if_neg hpre] at hc
    exact hacc c hc

theorem all_files_prefixed_by_sound (fs : FS) (excludes : List (List Char))
    (view : List Char) (fuel : Nat) (pfx : List Char) (prefix_region : Region) :
    ∀ c ∈ (all_files_prefixed_by fs excludes view fuel pfx prefix_region).1,
      found_sound fs c := by
  intro c hc
  unfold all_files_prefixed_by at hc
  split at hc
  · exact foldl_preserve _ _ (afpb_step_sound fs excludes view fuel _ _ pfx
      prefix_region) _ ([], false) (by simp) c hc
  · simp at hc

theorem check_absolute_path_sound (fs : FS) (env : Env)
    (excludes : List (List Char)) (view : List Char) (fuel : Nat)
    (region : Region) (path : List Char) :
    ∀ c ∈ (check_absolute_path fs env excludes view fuel region path).1,
      found_sound fs c := by
  intro c hc
  unfold check_absolute_path at hc
  split at hc
  · exact all_files_prefixed_by_sound fs excludes view fuel _ region c hc
  · split at hc
    · split at hc
      · exact all_files_prefixed_by_sound fs excludes view fuel _ region c hc
      · simp at hc
    · simp at hc

theorem all_matching_descendants_sound (fs : FS) (excludes : List (List Char))
    (view : List Char) (fuel : Nat) (folder_path : List Char)
    (folder_region : Region) :
    ∀ c ∈ all_matching_descendants fs excludes view fuel folder_path folder_region,
      found_sound fs c := by
  intro c hc
  unfold all_matching_descendants at hc
  exact all_matching_descendants_walk_sound fs excludes view _ _ _ _ c hc

theorem search_contains_sound (fs : FS) (excludes : List (List Char))
    (view : List Char) (fuel : Nat) (folders : List AbsolutePath)
    (pwd : AbsolutePath) (region : Region) (basename : List Char) :
    ∀ c ∈ search_contains fs excludes view fuel folders pwd region basename,
      found_sound fs c := by
  intro c hc
  simp only [search_contains] at hc
  rw [List.mem_flatMap] at hc
  obtain ⟨folder, _, hc⟩ := hc
  rw [List.mem_flatMap] at hc
  obtain ⟨name, _, hc⟩ := hc
  rw [List.mem_flatMap] at hc
  obtain ⟨idx, _, hc⟩ := hc
  split at hc
  · split at hc
    · rw [List.mem_cons] at hc
      rcases hc with hc | hc
      · subst hc
        exact Or.inl ⟨rfl, by assumption⟩
      · split at hc
        · exact all_matching_descendants_sound fs excludes view fuel _ _ c hc
        · simp at hc
    · split at hc
      · split at hc
        · rw [List.mem_singleton] at hc
          subst hc
          exact Or.inr ⟨rfl, by assumption⟩
        · simp at hc
      · simp at hc
  · simp at hc

theorem search_prefix_walk_sound (fs : FS) (env : Env)
    (excludes : List (List Char)) (view : List Char) (pwd : AbsolutePath)
    (basename : List Char) (region : Region) :
    ∀ (fuel : Nat) (dirpath : List Char) (c : Candidate),
      c ∈ search_prefix_walk fs env excludes view pwd basename region fuel dirpath →
      found_sound fs c := by
  intro fuel
  induction fuel with
  | zero =>
    intro dirpath c hc
    simp [search_prefix_walk] at hc
  | succ fuel ih =>
    intro dirpath c hc
    simp only [search_prefix_walk] at hc
    rw [List.mem_append] at hc
    rcases hc with hc | hc
    · rw [List.mem_flatMap] at hc
      obtain ⟨sstep, hs, hcs⟩ := hc
      rw [List.mem_map] at hs
      obtain ⟨dirname, _, hsdef⟩ := hs
      subst hsdef
      split at hcs
      · simp at hcs
      · split at hcs
        · simp at hcs
        · exact all_files_prefixed_by_sound fs excludes view fuel _ region c hcs
    · rw [List.mem_flatMap] at hc
      obtain ⟨dirname, _, hcrec⟩ := hc
      exact ih _ c hcrec

theorem search_prefixed_sound (fs : FS) (env : Env)
    (excludes : List (List Char)) (view : List Char) (fuel : Nat)
    (folders : List AbsolutePath) (pwd home : AbsolutePath) (region : Region)
    (basename : List Char) :
    ∀ c ∈ search_prefixed fs env excludes view fuel folders pwd home region
        basename,
      found_sound fs c := by
  intro c hc
  simp only [search_prefixed] at hc
  rw [List.mem_append] at hc
  rcases hc with hc | hc
  · rw [List.mem_flatMap] at hc
    obtain ⟨folder, _, hc⟩ := hc
    split at hc
    · rw [List.mem_flatMap] at hc
      obtain ⟨name, _, hc⟩ := hc
      split at hc
      · split at hc
        · split at hc
          · split at hc
            · simp at hc
            · rw [List.mem_singleton] at hc
              subst hc
              exact Or.inl ⟨rfl, by assumption⟩
          · split at hc
            · rw [List.mem_singleton] at hc
              subst hc
              exact Or.inr ⟨rfl, by assumption⟩
            · simp at hc
        · simp at hc
      · simp at hc
    · simp at hc
  · rw [List.mem_flatMap] at hc
    obtain ⟨folder, _, hc⟩ := hc
    split at hc
    · simp at hc
    · exact search_prefix_walk_sound fs env excludes view pwd _ region fuel _ c hc

theorem prefix_branch_filter_kinds (view : List Char) (cands : List Candidate) :
    ∀ c ∈ prefix_branch_filter view cands,
      ∃ c0 ∈ cands, c.kind = c0.kind ∧ c.path = c0.path := by
  intro c hc
  simp only [prefix_branch_filter, List.mem_flatMap] at hc
  obtain ⟨c0, hc0, hmem⟩ := hc
  refine ⟨c0, hc0, ?_⟩
  split at hmem
  · split at hmem
    · rw [List.mem_singleton] at hmem
      subst hmem
      exact ⟨rfl, rfl⟩
    · simp at hmem
  · rw [List.mem_singleton] at hmem
    subst hmem
    exact ⟨rfl, rfl⟩

theorem click_fallback_sound (fs : FS) (env : Env)
    (excludes : List (List Char)) (folders : List AbsolutePath)
    (pwd home : AbsolutePath) (view : List Char) (fuel : Nat)
    (region br : Region) (path : List Char) :
    ∀ c ∈ (if posixBasename path = path then
        (search_contains fs excludes view fuel folders pwd region
          (posixBasename path)).map
          (fun candidate =>
            (⟨candidate.kind,
              expand_left view candidate.region (posixDirname candidate.path),
              candidate.path⟩ : Candidate))
      else prefix_branch_filter view
        (search_prefixed fs env excludes view fuel folders pwd home br
          (posixBasename path))),
      found_sound fs c := by
  intro c hc
  split at hc
  · rw [List.mem_map] at hc
    obtain ⟨c0, hc0, hdef⟩ := hc
    have h0 := search_contains_sound fs excludes view fuel folders pwd
      _ _ c0 hc0
    subst hdef
    rcases h0 with ⟨h1, h2⟩ | ⟨h1, h2⟩
    · exact Or.inl ⟨h1, h2⟩
    · exact Or.inr ⟨h1, h2⟩
  · obtain ⟨c0, hc0, hkind, hpath⟩ := prefix_branch_filter_kinds view _ c hc
    have h0 := search_prefixed_sound fs env excludes view fuel folders
      pwd home _ _ c0 hc0
    rcases h0 with ⟨h1, h2⟩ | ⟨h1, h2⟩
    · exact Or.inl ⟨hkind.trans h1, by rw [hpath]; exact h2⟩
    · exact Or.inr ⟨hkind.trans h1, by rw [hpath]; exact h2⟩

theorem handle_click_point_sound (fs : FS) (env : Env)
    (excludes : List (List Char)) (folders : List AbsolutePath)
    (pwd home : AbsolutePath) (view : List Char) (fuel : Nat)
    (click_point : Int) :
    ∀ c ∈ handle_click_point fs env excludes folders pwd home view fuel
        click_point,
      found_sound fs c := by
  intro c hc
  simp only [handle_click_point] at hc
  split at hc
  · simp at hc
  · rw [List.mem_append] at hc
    rcases hc with hc | hc
    · exact check_absolute_path_sound fs env excludes view fuel _ _ c hc
    · split at hc
      · simp at hc
      · rw [List.mem_append] at hc
        rcases hc with hc | hc
        · split at hc
          · exact check_absolute_path_sound fs env excludes view fuel _ _ c hc
          · simp at hc
        · split at hc
          · split at hc
            · simp at hc
            · exact click_fallback_sound fs env excludes folders pwd home view
                fuel _ _ _ c hc
          · split at hc
            · simp at hc
            · exact click_fallback_sound fs env excludes folders pwd home view
                fuel _ _ _ c hc

/-- Claim C4: for an absolute path to an existing but unreadable file
(hence not a directory, and containing no environment syntax), the string
resolver yields no candidate at all for that text, and the click resolver
never yields any candidate carrying that path — the file is silently
excluded rather than surfaced as found, missing, or an error. -/
theorem c4_unreadable_file_excluded (fs : FS) (env : Env)
    (excludes : List (List Char)) (folders : List AbsolutePath)
    (pwd home : AbsolutePath) (view : List Char) (fuel : Nat) (click_point : Int)
    (p : List Char) (folderStrs : List (List Char)) (region0 : Region)
    (habs : isabs p = true) (hfile : fs.isFile p = true)
    (hunread : fs.readable p = false) (hnotdir : fs.isDir p = false)
    (hnovars : env.expandvars p = p) :
    candidates_from_string fs env p folderStrs region0 = []
    ∧ ∀ c ∈ handle_click_point fs env excludes folders pwd home view fuel
          click_point,
        c.path ≠ p := by
  constructor
  · simp only [candidates_from_string]
    rw [hnovars, expanduser_of_isabs env habs]
    rw [if_neg (by intro h; exact h rfl)]
    rw [if_pos habs, if_pos hfile,
      if_neg (by rw [hunread]; exact Bool.false_ne_true)]
    simp
  · intro c hc hpath
    rcases handle_click_point_sound fs env excludes folders pwd home view fuel
        click_point c hc with ⟨_, h2⟩ | ⟨_, h2⟩
    · rw [hpath, hnotdir] at h2
      exact Bool.false_ne_true h2
    · rw [hpath, hunread] at h2
      exact Bool.false_ne_true h2

/-- Filesystem for the C4 witness: one existing, unreadable file inside
one directory. -/
def fsC4 : FS where
  isFile := fun p => p = "/pwd/secret".toList
  isDir := fun p => p = "/pwd".toList
  readable := fun _ => false
  listdir := fun p => if p = "/pwd".toList then ["secret".toList] else []

/-- Claim C4, witness: the theorem applied to the concrete unreadable
file, showing the string resolver yields nothing and the click resolver
does not surface the file. -/
theorem c4_witness :
    candidates_from_string fsC4 envId "/pwd/secret".toList [] ⟨0, 0⟩ = []
    ∧ (⟨CandidateKind.fileFound, ⟨0, 11⟩, "/pwd/secret".toList⟩ : Candidate)
        ∉ handle_click_point fsC4 envId [] [] ⟨"/pwd".toList⟩ ⟨"/h".toList⟩
            "/pwd/secret".toList 5 3 := by
  have h := c4_unreadable_file_excluded fsC4 envId [] [] ⟨"/pwd".toList⟩
    ⟨"/h".toList⟩ "/pwd/secret".toList 5 3 "/pwd/secret".toList [] ⟨0, 0⟩
    (by decide) (by decide) (by decide) (by decide) (by decide)
  exact ⟨h.1, fun hmem => (h.2 _ hmem) rfl⟩

end Gidopen
